import Mathlib

/-! LBinaryTree: a pointer-linked binary search tree map.

A shallow embedding of `src/LBinaryTree.cpp` and a verification of its
specification.

* A `BinaryTreeNode*` is a value of the inductive type `BinaryTreeNode`:
  `null` is `nullptr`, `node left key value right` is a heap node.  Every node
  is owned by exactly one link, so in-place updates through `setLeft`,
  `setRight`, `setKey` and `setValue` are rebuilt nodes.
* The private recursive overloads that take a node pointer
  (`insert(node, key, value)`, `find(node, key)`, `remove(node, key)`,
  `str(node)`, `getMinimum`, `deleteMinimum`) live in the namespace
  `BinaryTreeNode`; the public members live in `LBinaryTree`.  Freeing memory
  (`delete`, the private `clear(node)`) has no counterpart on values.
* A thrown `BinaryTreeKeyNotFoundException` is `Except.error Fault.keyNotFound`;
  dereferencing `nullptr` or reading an array past its end (undefined
  behaviour in C++) is reported as a separate fault.
* `cout << ...` appends the written value to an explicit output list.
* The key type is any linear order (the source instantiates `int` and
  `string`), so `==`, `<`, `<=` and `>` agree.
-/

/-- The ways a call can fail to return normally. -/
inductive Fault where
  /-- A thrown `BinaryTreeKeyNotFoundException`. -/
  | keyNotFound
  /-- A member access through `nullptr` (undefined behaviour). -/
  | nullDereference
  /-- A read past the end of an input array (undefined behaviour). -/
  | outOfBounds
  deriving DecidableEq, Repr

/-- Modelled from the spec: the node class of the absent `BinaryTreeNode.hpp`;
a node holds a key, a value and two owned links to its left and right child,
and `null` is the absent link. -/
inductive BinaryTreeNode (K V : Type) where
  | null : BinaryTreeNode K V
  | node (left : BinaryTreeNode K V) (key : K) (value : V)
      (right : BinaryTreeNode K V) : BinaryTreeNode K V
  deriving DecidableEq, Repr

/-- Modelled from the spec: the data members declared in the absent
`LBinaryTree.hpp` and `BinaryTree.hpp`; the map owns a root link and an
integer count of stored pairs. -/
structure LBinaryTree (K V : Type) where
  root : BinaryTreeNode K V
  size : Int
  deriving DecidableEq, Repr

namespace BinaryTreeNode

variable {K V : Type}

/-- The accessor `node->getKey()`. -/
def getKey : BinaryTreeNode K V → Except Fault K
  | null => .error .nullDereference
  | node _ key _ _ => .ok key

/-- The accessor `node->getValue()`. -/
def getValue : BinaryTreeNode K V → Except Fault V
  | null => .error .nullDereference
  | node _ _ value _ => .ok value

/-- The private `str(node)`: left subtree, this value and a blank, right
subtree.  `render` is the `operator<<` of the value type. -/
def str (render : V → String) : BinaryTreeNode K V → String
  | null => ""
  | node left _ value right =>
    str render left ++ render value ++ " " ++ str render right

variable [LinearOrder K]

/-- The private `insert(node, key, value)`.  The member `size` is threaded
through as the last argument and second result. -/
def insert : BinaryTreeNode K V → K → V → Int → BinaryTreeNode K V × Int
  | null, key, value, size => (node null key value null, size + 1)
  | node left k v right, key, value, size =>
    if key ≤ k then
      let returned := insert left key value size
      (node returned.1 k v right, returned.2)
    else
      let returned := insert right key value size
      (node left k v returned.1, returned.2)

/-- The private `find(node, key)`: the result or thrown exception, and what
the call wrote to `cout`. -/
def find : BinaryTreeNode K V → K → Except Fault V × List V
  | null, _ => (.error .keyNotFound, [])
  | node left k v right, key =>
    if k = key then (.ok v, [])
    else if key < k then find left key
    else
      match find right key with
      | (.ok returnedVal, out) => (.ok returnedVal, out ++ [returnedVal])
      | (.error e, out) => (.error e, out)

/-- The helper `getMinimum(node)`: the leftmost node below `node`. -/
def getMinimum : BinaryTreeNode K V → Except Fault (BinaryTreeNode K V)
  | null => .error .nullDereference
  | node left k v right =>
    match left with
    | null => .ok (node null k v right)
    | node ll lk lv lr => getMinimum (node ll lk lv lr)

/-- The helper `deleteMinimum(node)`: `node` with its leftmost node unlinked. -/
def deleteMinimum : BinaryTreeNode K V → Except Fault (BinaryTreeNode K V)
  | null => .error .nullDereference
  | node left k v right =>
    match left with
    | null => .ok right
    | node ll lk lv lr =>
      match deleteMinimum (node ll lk lv lr) with
      | .ok newNode => .ok (node newNode k v right)
      | .error e => .error e

/-- The private `remove(node, key)`.  No link is written before a recursive
call has returned, so a throw leaves the tree as it was. -/
def remove : BinaryTreeNode K V → K → Except Fault (BinaryTreeNode K V)
  | null, _ => .error .keyNotFound
  | node left k v right, key =>
    if key < k then
      match remove left key with
      | .ok newLeft => .ok (node newLeft k v right)
      | .error e => .error e
    else if key > k then
      match remove right key with
      | .ok newRight => .ok (node left k v newRight)
      | .error e => .error e
    else
      match left, right with
      | null, _ => .ok right
      | _, null => .ok left
      | _, _ => do
        let temptwo ← getMinimum right
        let newValue ← getValue temptwo
        let newKey ← getKey temptwo
        let newRight ← deleteMinimum right
        pure (node left newKey newValue newRight)

/-- The in-order traversal (left subtree, node, right subtree) that `str`
performs, as the list of visited key/value pairs. -/
def inorder : BinaryTreeNode K V → List (K × V)
  | null => []
  | node left k v right => inorder left ++ (k, v) :: inorder right

/-- The keys of the stored nodes, in in-order. -/
def keys (t : BinaryTreeNode K V) : List K := (inorder t).map Prod.fst

/-- The text that `str` produces for a list of visited pairs. -/
def renderAll (render : V → String) : List (K × V) → String
  | [] => ""
  | p :: rest => render p.2 ++ " " ++ renderAll render rest

/-- The number of nodes reachable from a link. -/
def numNodes : BinaryTreeNode K V → Nat
  | null => 0
  | node left _ _ right => numNodes left + numNodes right + 1

/-- The order invariant as the specification states it: below every node the
left keys are at most the node key and the right keys are strictly greater. -/
def BSTOrder : BinaryTreeNode K V → Prop
  | null => True
  | node left k _ right =>
    (∀ x ∈ keys left, x ≤ k) ∧ (∀ x ∈ keys right, k < x) ∧
      BSTOrder left ∧ BSTOrder right

/-- The order invariant with a non-strict bound on the right. -/
def WeakOrder : BinaryTreeNode K V → Prop
  | null => True
  | node left k _ right =>
    (∀ x ∈ keys left, x ≤ k) ∧ (∀ x ∈ keys right, k ≤ x) ∧
      WeakOrder left ∧ WeakOrder right

/-- One step of a descent: into the left or into the right child. -/
inductive Branch where
  | left
  | right
  deriving DecidableEq, Repr

/-- The descent of `find(node, key)`: the branches its recursive calls take. -/
def findPath : BinaryTreeNode K V → K → List Branch
  | null, _ => []
  | node left k _ right, key =>
    if k = key then []
    else if key < k then Branch.left :: findPath left key
    else Branch.right :: findPath right key

/-- The descent of `remove(node, key)`: the branches its recursive calls
take before it stops. -/
def removePath : BinaryTreeNode K V → K → List Branch
  | null, _ => []
  | node left k _ right, key =>
    if key < k then Branch.left :: removePath left key
    else if key > k then Branch.right :: removePath right key
    else []

/-- The link reached from a node by following a list of branches. -/
def subtreeAt : BinaryTreeNode K V → List Branch → BinaryTreeNode K V
  | t, [] => t
  | null, _ :: _ => null
  | node left _ _ _, Branch.left :: rest => subtreeAt left rest
  | node _ _ _ right, Branch.right :: rest => subtreeAt right rest

/-- The tree in which the link reached by a list of branches holds another
subtree: what a chain of `setLeft` and `setRight` calls along the branches
builds. -/
def replaceAt : BinaryTreeNode K V → List Branch → BinaryTreeNode K V →
    BinaryTreeNode K V
  | _, [], s => s
  | null, _ :: _, _ => null
  | node left k v right, Branch.left :: rest, s => node (replaceAt left rest s) k v right
  | node left k v right, Branch.right :: rest, s => node left k v (replaceAt right rest s)

end BinaryTreeNode

namespace LBinaryTree

variable {K V : Type}

/-- The default constructor `LBinaryTree()`. -/
def empty : LBinaryTree K V := { root := .null, size := 0 }

/-- The public `str()`. -/
def str (render : V → String) (t : LBinaryTree K V) : String :=
  "<BinaryTree> size: " ++ toString t.size ++ " values: [ " ++
    BinaryTreeNode.str render t.root ++ "]"

/-- The public `clear()`.  The recursive `clear(root)` it calls first only
frees the nodes, which has no effect on a value of this model. -/
def clear (_t : LBinaryTree K V) : LBinaryTree K V :=
  { root := .null, size := 0 }

variable [LinearOrder K]

/-- The public `insert(key, value)`. -/
def insert (t : LBinaryTree K V) (key : K) (value : V) : LBinaryTree K V :=
  let returned := BinaryTreeNode.insert t.root key value t.size
  { root := returned.1, size := returned.2 }

/-- The public `find(key)`. -/
def find (t : LBinaryTree K V) (key : K) : Except Fault V × List V :=
  BinaryTreeNode.find t.root key

/-- What a call of the public `remove(key)` leaves behind: the returned value
or the fault, the map afterwards, and what was written to `cout`. -/
structure Removed (K V : Type) where
  result : Except Fault V
  tree : LBinaryTree K V
  out : List V

/-- The public `remove(key)`: look the value up, unlink the node, decrement
`size`.  A throw happens before any member is written. -/
def remove (t : LBinaryTree K V) (key : K) : Removed K V :=
  match BinaryTreeNode.find t.root key with
  | (.error e, out) => { result := .error e, tree := t, out := out }
  | (.ok found, out) =>
    match BinaryTreeNode.remove t.root key with
    | .error e => { result := .error e, tree := t, out := out }
    | .ok newRoot =>
      { result := .ok found, tree := { root := newRoot, size := t.size - 1 },
        out := out }

/-- The loop of the array constructor: `count` iterations left, starting at
index `idx`. -/
def fromArraysLoop (keys : List K) (values : List V) :
    Nat → Nat → LBinaryTree K V → Except Fault (LBinaryTree K V)
  | 0, _, t => .ok t
  | count + 1, idx, t =>
    match keys[idx]?, values[idx]? with
    | some key, some value =>
      fromArraysLoop keys values count (idx + 1) (t.insert key value)
    | _, _ => .error .outOfBounds

/-- The array constructor `LBinaryTree(size, keys, values)`. -/
def fromArrays (size : Int) (keys : List K) (values : List V) :
    Except Fault (LBinaryTree K V) :=
  fromArraysLoop keys values size.toNat 0 empty

/-- The public calls that change a map. -/
inductive Op (K V : Type) where
  | insert (key : K) (value : V)
  | remove (key : K)
  | clear

/-- The map after one public call. -/
def applyOp (t : LBinaryTree K V) : Op K V → LBinaryTree K V
  | .insert key value => t.insert key value
  | .remove key => (t.remove key).tree
  | .clear => t.clear

/-- The map after a sequence of public calls on the empty map. -/
def run (ops : List (Op K V)) : LBinaryTree K V :=
  ops.foldl applyOp empty

/-- Insert the pairs of a list one by one, first pair first. -/
def insertAll (t : LBinaryTree K V) (pairs : List (K × V)) : LBinaryTree K V :=
  pairs.foldl (fun m p => m.insert p.1 p.2) t

/-- Remove the keys of a list one by one, first key first: the result of every
call, and the map at the end. -/
def removeAll (t : LBinaryTree K V) : List K → List (Except Fault V) × LBinaryTree K V
  | [] => ([], t)
  | key :: rest =>
    let step := t.remove key
    let later := removeAll step.tree rest
    (step.result :: later.1, later.2)

/-- The structural invariant of a map: keys in order (non-strictly on the
right) and the count equal to the number of nodes. -/
def Invariant (t : LBinaryTree K V) : Prop :=
  BinaryTreeNode.WeakOrder t.root ∧ t.size = BinaryTreeNode.numNodes t.root

/-- The three inserts of the specification's first scenario: keys 5, 3, 8 with
values c, a, h. -/
def scenarioPairs : List (Int × String) := [(5, "c"), (3, "a"), (8, "h")]

/-- The calls that build the map of the first scenario. -/
def scenarioOps : List (Op Int String) :=
  [.insert 5 "c", .insert 3 "a", .insert 8 "h"]

/-- The calls of the duplicate-key scenario: 5, 10, 10 and 3 are inserted,
then 5 is removed. -/
def duplicateOps : List (Op Int String) :=
  [.insert 5 "a", .insert 10 "b", .insert 10 "c", .insert 3 "d", .remove 5]

/-- The calls of the repeated-key scenario: key 5 is inserted twice. -/
def repeatedOps : List (Op Int String) := [.insert 5 "a", .insert 5 "b"]

/-- The number of insert calls in a sequence of calls. -/
def insertCalls : List (Op K V) → Nat
  | [] => 0
  | .insert _ _ :: rest => insertCalls rest + 1
  | .remove _ :: rest => insertCalls rest
  | .clear :: rest => insertCalls rest

/-- The number of remove calls that return a value when a sequence of calls
is run on a map. -/
def removeSuccesses (t : LBinaryTree K V) : List (Op K V) → Nat
  | [] => 0
  | .insert key value :: rest => removeSuccesses (t.insert key value) rest
  | .remove key :: rest =>
    match (t.remove key).result with
    | .ok _ => removeSuccesses (t.remove key).tree rest + 1
    | .error _ => removeSuccesses (t.remove key).tree rest
  | .clear :: rest => removeSuccesses t.clear rest

/-- A sequence with a remove that throws and a remove that succeeds. -/
def ledgerOps : List (Op Int String) :=
  [.insert 5 "c", .insert 3 "a", .remove 7, .remove 5]

/-- The inserts of the specification's second scenario: keys 10, 5, 15, 12, 20
with their labels. -/
def spliceOps : List (Op Int String) :=
  [.insert 10 "10", .insert 5 "5", .insert 15 "15", .insert 12 "12", .insert 20 "20"]

/-- Two inserts, the second key greater than the first. -/
def rightOps : List (Op Int String) := [.insert 5 "c", .insert 8 "h"]

end LBinaryTree

/-! ## The traversal and the node count -/

namespace BinaryTreeNode

variable {K V : Type}

theorem renderAll_append (render : V → String) (a b : List (K × V)) :
    renderAll render (a ++ b) = renderAll render a ++ renderAll render b := by
  induction a with
  | nil => simp [renderAll]
  | cons p rest ih => simp [renderAll, ih, String.append_assoc]

theorem str_eq_renderAll (render : V → String) (t : BinaryTreeNode K V) :
    str render t = renderAll render (inorder t) := by
  induction t with
  | null => simp [str, inorder, renderAll]
  | node l k v r ihl ihr =>
    simp [str, inorder, renderAll, renderAll_append, ihl, ihr, String.append_assoc]

theorem numNodes_eq_length (t : BinaryTreeNode K V) :
    numNodes t = (inorder t).length := by
  induction t with
  | null => simp [numNodes, inorder]
  | node l k v r ihl ihr => simp [numNodes, inorder, ihl, ihr]; omega

theorem keys_node (l r : BinaryTreeNode K V) (k : K) (v : V) :
    keys (node l k v r) = keys l ++ k :: keys r := by
  simp [keys, inorder]

theorem mem_keys_iff (t : BinaryTreeNode K V) (k : K) :
    k ∈ keys t ↔ ∃ p ∈ inorder t, p.1 = k := by
  simp [keys]

theorem value_unique {pairs : List (K × V)} (hd : (pairs.map Prod.fst).Nodup)
    {k : K} {v w : V} (hv : (k, v) ∈ pairs) (hw : (k, w) ∈ pairs) : v = w := by
  have h := List.inj_on_of_nodup_map hd hv hw rfl
  exact (Prod.mk.inj h).2

theorem inorder_eq_nil {t : BinaryTreeNode K V} (h : inorder t = []) : t = null := by
  cases t with
  | null => rfl
  | node l k v r => simp [inorder] at h

/-! ## getMinimum and deleteMinimum -/

theorem minimum_spec (l r : BinaryTreeNode K V) (k : K) (v : V) :
    ∃ mk mv mr t', getMinimum (node l k v r) = .ok (node null mk mv mr) ∧
      deleteMinimum (node l k v r) = .ok t' ∧
      inorder (node l k v r) = (mk, mv) :: inorder t' := by
  induction l generalizing k v r with
  | null => exact ⟨k, v, r, r, by simp [getMinimum], by simp [deleteMinimum], by simp [inorder]⟩
  | node ll lk lv lr ihl _ =>
    obtain ⟨mk, mv, mr, t', h1, h2, h3⟩ := ihl lr lk lv
    refine ⟨mk, mv, mr, node t' k v r, ?_, ?_, ?_⟩
    · rw [getMinimum]
      exact h1
    · rw [deleteMinimum]
      simp only [h2]
    · rw [inorder, h3]
      simp [inorder]

variable [LinearOrder K]

theorem weakOrder_iff_pairwise (t : BinaryTreeNode K V) :
    WeakOrder t ↔ (keys t).Pairwise (· ≤ ·) := by
  induction t with
  | null => simp [WeakOrder, keys, inorder]
  | node l k v r ihl ihr =>
    rw [keys_node, List.pairwise_append, List.pairwise_cons, WeakOrder, ihl, ihr]
    constructor
    · rintro ⟨hl, hr, pl, pr⟩
      refine ⟨pl, ⟨hr, pr⟩, ?_⟩
      intro a ha b hb
      rcases List.mem_cons.mp hb with rfl | hb
      · exact hl a ha
      · exact le_trans (hl a ha) (hr b hb)
    · rintro ⟨pl, ⟨hr, pr⟩, hlr⟩
      exact ⟨fun a ha => hlr a ha k (List.mem_cons_self _ _), hr, pl, pr⟩

/-! ## insert -/

theorem insert_snd (t : BinaryTreeNode K V) (key : K) (value : V) (size : Int) :
    (insert t key value size).2 = size + 1 := by
  induction t with
  | null => simp [insert]
  | node l k v r ihl ihr =>
    unfold insert
    split <;> simp [ihl, ihr]

theorem insert_inorder (t : BinaryTreeNode K V) (key : K) (value : V) (size : Int) :
    ∃ pre post, inorder t = pre ++ post ∧
      inorder (insert t key value size).1 = pre ++ (key, value) :: post := by
  induction t with
  | null => exact ⟨[], [], by simp [inorder, insert]⟩
  | node l k v r ihl ihr =>
    unfold insert
    split
    · obtain ⟨pre, post, h1, h2⟩ := ihl
      exact ⟨pre, post ++ (k, v) :: inorder r, by simp [inorder, h1], by simp [inorder, h2]⟩
    · obtain ⟨pre, post, h1, h2⟩ := ihr
      exact ⟨inorder l ++ (k, v) :: pre, post, by simp [inorder, h1], by simp [inorder, h2]⟩

theorem insert_perm (t : BinaryTreeNode K V) (key : K) (value : V) (size : Int) :
    (inorder (insert t key value size).1).Perm ((key, value) :: inorder t) := by
  obtain ⟨pre, post, h1, h2⟩ := insert_inorder t key value size
  rw [h1, h2]
  exact List.perm_middle

theorem mem_keys_insert (t : BinaryTreeNode K V) (key : K) (value : V) (size : Int)
    (x : K) : x ∈ keys (insert t key value size).1 ↔ x = key ∨ x ∈ keys t := by
  have h := ((insert_perm t key value size).map Prod.fst).mem_iff (a := x)
  simpa [keys] using h

theorem insert_numNodes (t : BinaryTreeNode K V) (key : K) (value : V) (size : Int) :
    numNodes (insert t key value size).1 = numNodes t + 1 := by
  rw [numNodes_eq_length, numNodes_eq_length, (insert_perm t key value size).length_eq]
  simp

theorem insert_bstOrder (t : BinaryTreeNode K V) (key : K) (value : V) (size : Int)
    (h : BSTOrder t) : BSTOrder (insert t key value size).1 := by
  induction t with
  | null => simp [insert, BSTOrder, keys, inorder]
  | node l k v r ihl ihr =>
    obtain ⟨hl, hr, bl, br⟩ := h
    unfold insert
    split
    · rename_i hle
      refine ⟨?_, hr, ihl bl, br⟩
      intro x hx
      rcases (mem_keys_insert l key value size x).mp hx with rfl | hx
      · exact hle
      · exact hl x hx
    · rename_i hle
      refine ⟨hl, ?_, bl, ihr br⟩
      intro x hx
      rcases (mem_keys_insert r key value size x).mp hx with rfl | hx
      · exact lt_of_not_le hle
      · exact hr x hx

theorem insert_weakOrder (t : BinaryTreeNode K V) (key : K) (value : V) (size : Int)
    (h : WeakOrder t) : WeakOrder (insert t key value size).1 := by
  induction t with
  | null => simp [insert, WeakOrder, keys, inorder]
  | node l k v r ihl ihr =>
    obtain ⟨hl, hr, bl, br⟩ := h
    unfold insert
    split
    · rename_i hle
      refine ⟨?_, hr, ihl bl, br⟩
      intro x hx
      rcases (mem_keys_insert l key value size x).mp hx with rfl | hx
      · exact hle
      · exact hl x hx
    · rename_i hle
      refine ⟨hl, ?_, bl, ihr br⟩
      intro x hx
      rcases (mem_keys_insert r key value size x).mp hx with rfl | hx
      · exact le_of_lt (lt_of_not_le hle)
      · exact hr x hx

/-! ## find -/

theorem find_fst_node (l r : BinaryTreeNode K V) (k key : K) (v : V) :
    (find (node l k v r) key).1 =
      if k = key then .ok v else if key < k then (find l key).1 else (find r key).1 := by
  conv_lhs => rw [find]
  split
  · rfl
  · split
    · rfl
    · split <;> simp_all

theorem find_ok_mem {t : BinaryTreeNode K V} {key : K} {v : V}
    (h : (find t key).1 = .ok v) : (key, v) ∈ inorder t := by
  induction t with
  | null => simp [find] at h
  | node l k w r ihl ihr =>
    rw [find_fst_node] at h
    simp only [inorder, List.mem_append, List.mem_cons]
    split at h
    · rename_i hk
      cases h
      exact Or.inr (Or.inl (by rw [hk]))
    · split at h
      · exact Or.inl (ihl h)
      · exact Or.inr (Or.inr (ihr h))

theorem find_error {t : BinaryTreeNode K V} {key : K} {e : Fault}
    (h : (find t key).1 = .error e) : e = .keyNotFound := by
  induction t with
  | null =>
    simp only [find] at h
    cases h
    rfl
  | node l k w r ihl ihr =>
    rw [find_fst_node] at h
    split at h
    · cases h
    · split at h
      · exact ihl h
      · exact ihr h

theorem find_keyNotFound_iff {t : BinaryTreeNode K V} (ht : WeakOrder t) (key : K) :
    (find t key).1 = .error .keyNotFound ↔ key ∉ keys t := by
  induction t with
  | null => simp [find, keys, inorder]
  | node l k w r ihl ihr =>
    obtain ⟨hl, hr, wl, wr⟩ := ht
    rw [find_fst_node, keys_node]
    simp only [List.mem_append, List.mem_cons, not_or]
    split
    · rename_i hk
      constructor
      · intro h
        cases h
      · rintro ⟨-, hne, -⟩
        exact absurd hk.symm hne
    · rename_i hk
      split
      · rename_i hlt
        rw [ihl wl]
        constructor
        · intro h
          exact ⟨h, fun e => hk e.symm, fun hm => absurd (hr key hm) (not_le_of_lt hlt)⟩
        · exact fun h => h.1
      · rename_i hlt
        rw [ihr wr]
        have hgt : k < key := lt_of_le_of_ne (not_lt.mp hlt) hk
        constructor
        · intro h
          exact ⟨fun hm => absurd (hl key hm) (not_le_of_lt hgt), fun e => hk e.symm, h⟩
        · exact fun h => h.2.2

theorem find_ok_of_mem {t : BinaryTreeNode K V} (ht : WeakOrder t) {key : K}
    (h : key ∈ keys t) : ∃ v, (find t key).1 = .ok v := by
  cases hf : (find t key).1 with
  | ok v => exact ⟨v, rfl⟩
  | error e =>
    have he := find_error hf
    subst he
    exact absurd h ((find_keyNotFound_iff ht key).mp hf)

/-! ## remove -/

theorem remove_node (l r : BinaryTreeNode K V) (k key : K) (w : V) :
    remove (node l k w r) key =
      (if key < k then
        match remove l key with
        | .ok newLeft => .ok (node newLeft k w r)
        | .error e => .error e
      else if key > k then
        match remove r key with
        | .ok newRight => .ok (node l k w newRight)
        | .error e => .error e
      else
        match l, r with
        | null, _ => .ok r
        | _, null => .ok l
        | _, _ => do
          let temptwo ← getMinimum r
          let newValue ← getValue temptwo
          let newKey ← getKey temptwo
          let newRight ← deleteMinimum r
          pure (node l newKey newValue newRight)) := by
  rfl

theorem remove_spec {t : BinaryTreeNode K V} {key : K} {v : V}
    (h : (find t key).1 = .ok v) :
    ∃ t' pre post, remove t key = .ok t' ∧
      inorder t = pre ++ (key, v) :: post ∧ inorder t' = pre ++ post := by
  induction t with
  | null => simp [find] at h
  | node l k w r ihl ihr =>
    rw [find_fst_node] at h
    by_cases hlt : key < k
    · have hne : ¬ k = key := fun e => absurd hlt (by rw [e]; exact lt_irrefl _)
      rw [if_neg hne, if_pos hlt] at h
      obtain ⟨t', pre, post, h1, h2, h3⟩ := ihl h
      refine ⟨node t' k w r, pre, post ++ (k, w) :: inorder r, ?_, ?_, ?_⟩
      · rw [remove_node, if_pos hlt]
        simp only [h1]
      · simp [inorder, h2]
      · simp [inorder, h3]
    · by_cases hgt : key > k
      · have hne : ¬ k = key := fun e => absurd hgt (by rw [e]; exact lt_irrefl _)
        rw [if_neg hne, if_neg hlt] at h
        obtain ⟨t', pre, post, h1, h2, h3⟩ := ihr h
        refine ⟨node l k w t', inorder l ++ (k, w) :: pre, post, ?_, ?_, ?_⟩
        · rw [remove_node, if_neg hlt, if_pos hgt]
          simp only [h1]
        · simp [inorder, h2]
        · simp [inorder, h3]
      · have heq : k = key := le_antisymm (not_lt.mp hlt) (not_lt.mp hgt)
        rw [if_pos heq] at h
        cases h
        subst heq
        cases l with
        | null =>
          exact ⟨r, [], inorder r, by simp [remove_node, hlt, hgt], by simp [inorder], by simp⟩
        | node ll lk lv lr =>
          cases r with
          | null =>
            exact ⟨node ll lk lv lr, inorder (node ll lk lv lr), [],
              by simp [remove_node, hlt, hgt], by simp [inorder], by simp⟩
          | node rl rk rv rr =>
            obtain ⟨mk, mv, mr, t', h1, h2, h3⟩ := minimum_spec rl rr rk rv
            refine ⟨node (node ll lk lv lr) mk mv t', inorder (node ll lk lv lr),
              inorder (node rl rk rv rr), ?_, ?_, ?_⟩
            · rw [remove_node, if_neg hlt, if_neg hgt]
              simp only [h1, h2]
              rfl
            · rw [inorder]
            · rw [inorder, h3]

end BinaryTreeNode

/-! ## The invariant of the public operations -/

namespace LBinaryTree

open BinaryTreeNode

variable {K V : Type} [LinearOrder K]

theorem invariant_empty : Invariant (empty : LBinaryTree K V) := by
  simp [Invariant, empty, WeakOrder, numNodes]

theorem invariant_clear (t : LBinaryTree K V) : Invariant t.clear := by
  simp [Invariant, clear, WeakOrder, numNodes]

theorem invariant_insert {t : LBinaryTree K V} (h : Invariant t) (key : K) (value : V) :
    Invariant (t.insert key value) := by
  refine ⟨insert_weakOrder _ _ _ _ h.1, ?_⟩
  simp only [insert, insert_snd, insert_numNodes, h.2]
  push_cast
  rfl

theorem remove_of_find_ok {t : LBinaryTree K V} {key : K} {v : V}
    (h : (t.find key).1 = .ok v) :
    ∃ t' pre post, (t.remove key).result = .ok v ∧
      (t.remove key).tree = { root := t', size := t.size - 1 } ∧
      BinaryTreeNode.remove t.root key = .ok t' ∧
      inorder t.root = pre ++ (key, v) :: post ∧ inorder t' = pre ++ post := by
  obtain ⟨t', pre, post, h1, h2, h3⟩ := remove_spec h
  refine ⟨t', pre, post, ?_, ?_, h1, h2, h3⟩
  · unfold remove
    unfold find at h
    split
    · simp_all
    · simp_all
  · unfold remove
    unfold find at h
    split
    · simp_all
    · simp_all

theorem remove_of_find_error {t : LBinaryTree K V} {key : K} {e : Fault}
    (h : (t.find key).1 = .error e) :
    (t.remove key).result = .error e ∧ (t.remove key).tree = t := by
  unfold remove
  unfold find at h
  split
  · simp_all
  · simp_all

theorem weakOrder_of_split {t t' : BinaryTreeNode K V} {pre post : List (K × V)}
    {p : K × V} (ht : WeakOrder t) (h1 : inorder t = pre ++ p :: post)
    (h2 : inorder t' = pre ++ post) : WeakOrder t' := by
  rw [weakOrder_iff_pairwise] at ht ⊢
  have hs : (pre ++ post).Sublist (pre ++ p :: post) :=
    (List.sublist_cons_self p post).append_left pre
  rw [keys, h1] at ht
  rw [keys, h2]
  exact ht.sublist (hs.map Prod.fst)

theorem invariant_remove {t : LBinaryTree K V} (h : Invariant t) (key : K) :
    Invariant (t.remove key).tree := by
  cases hf : (t.find key).1 with
  | error e => rw [(remove_of_find_error hf).2]; exact h
  | ok v =>
    obtain ⟨t', pre, post, -, h2, -, h4, h5⟩ := remove_of_find_ok hf
    rw [h2]
    refine ⟨weakOrder_of_split h.1 h4 h5, ?_⟩
    have hn : numNodes t.root = numNodes t' + 1 := by
      rw [numNodes_eq_length, numNodes_eq_length, h4, h5]
      simp only [List.length_append, List.length_cons]
      omega
    simp only [h.2, hn]
    push_cast
    ring

theorem invariant_applyOp {t : LBinaryTree K V} (h : Invariant t) (op : Op K V) :
    Invariant (applyOp t op) := by
  cases op with
  | insert key value => exact invariant_insert h key value
  | remove key => exact invariant_remove h key
  | clear => exact invariant_clear t

theorem invariant_foldl (ops : List (Op K V)) {t : LBinaryTree K V} (h : Invariant t) :
    Invariant (ops.foldl applyOp t) := by
  induction ops generalizing t with
  | nil => exact h
  | cons op rest ih => exact ih (invariant_applyOp h op)

theorem invariant_run (ops : List (Op K V)) : Invariant (run ops) :=
  invariant_foldl ops invariant_empty

end LBinaryTree

/-! ## Lookup, order and count of reachable maps -/

namespace LBinaryTree

open BinaryTreeNode

variable {K V : Type} [LinearOrder K]

theorem bstOrder_of_nodup {t : BinaryTreeNode K V} (hw : WeakOrder t)
    (hn : (keys t).Nodup) : BSTOrder t := by
  induction t with
  | null => trivial
  | node l k v r ihl ihr =>
    obtain ⟨hl, hr, wl, wr⟩ := hw
    rw [keys_node] at hn
    have hnl : (keys l).Nodup := (List.nodup_append.mp hn).1
    have hnr : (k :: keys r).Nodup := (List.nodup_append.mp hn).2.1
    refine ⟨hl, ?_, ihl wl hnl, ihr wr (List.nodup_cons.mp hnr).2⟩
    intro x hx
    refine lt_of_le_of_ne (hr x hx) ?_
    rintro rfl
    exact (List.nodup_cons.mp hnr).1 hx

theorem bstOrder_foldl (ops : List (Op K V)) (h : ∀ op ∈ ops, ∀ k, op ≠ Op.remove k)
    {t : LBinaryTree K V} (ht : BSTOrder t.root) :
    BSTOrder (ops.foldl applyOp t).root := by
  induction ops generalizing t with
  | nil => exact ht
  | cons op rest ih =>
    refine ih (fun o ho => h o (List.mem_cons_of_mem _ ho)) ?_
    cases op with
    | insert key value => exact insert_bstOrder _ _ _ _ ht
    | remove key => exact absurd rfl (h _ (List.mem_cons_self _ _) key)
    | clear => trivial

/-- C1: on every map reached from the empty map by insert, remove and clear
calls, `find(k)` throws KeyNotFound exactly when no stored node has key `k`,
and when some stored node has key `k` it returns the value of a stored node
with that key. -/
theorem find_fails_iff_key_absent (ops : List (Op K V)) (k : K) :
    (((run ops).find k).1 = .error .keyNotFound ↔
        ∀ p ∈ inorder (run ops).root, p.1 ≠ k) ∧
      ((∃ p ∈ inorder (run ops).root, p.1 = k) →
        ∃ v, ((run ops).find k).1 = .ok v ∧ (k, v) ∈ inorder (run ops).root) := by
  have hw := (invariant_run ops).1
  constructor
  · rw [find, find_keyNotFound_iff hw]
    constructor
    · intro h p hp hk
      exact h ((mem_keys_iff _ _).mpr ⟨p, hp, hk⟩)
    · intro h hm
      obtain ⟨p, hp, hk⟩ := (mem_keys_iff _ _).mp hm
      exact h p hp hk
  · intro h
    obtain ⟨v, hv⟩ := find_ok_of_mem hw ((mem_keys_iff _ _).mpr h)
    exact ⟨v, hv, find_ok_mem hv⟩

/-- C3: on every map reached from the empty map by insert, remove and clear
calls, the in-order traversal visits the nodes in non-decreasing key order, and
the text of the private `str` is the rendering of exactly that traversal. -/
theorem inorder_keys_nondecreasing (ops : List (Op K V)) (render : V → String) :
    (inorder (run ops).root).Pairwise (fun a b => a.1 ≤ b.1) ∧
      BinaryTreeNode.str render (run ops).root =
        renderAll render (inorder (run ops).root) := by
  refine ⟨?_, str_eq_renderAll render _⟩
  have hw := (weakOrder_iff_pairwise _).mp (invariant_run ops).1
  rw [keys, List.pairwise_map] at hw
  exact hw

/-- C4, counterexample: after inserting 5, 10, 10, 3 and removing 5 the root
holds key 10 and its right subtree holds key 10 as well, so the strict bound on
the right subtree fails. -/
theorem bstOrder_fails_after_duplicate_remove :
    (run duplicateOps).root =
        .node (.node .null 3 "d" .null) 10 "c" (.node .null 10 "b" .null) ∧
      ¬ BSTOrder (run duplicateOps).root := by
  have hroot : (run duplicateOps).root =
      .node (.node .null 3 "d" .null) 10 "c" (.node .null 10 "b" .null) := by decide
  refine ⟨hroot, ?_⟩
  rw [hroot]
  intro h
  exact absurd (h.2.1 10 (by simp [keys, inorder])) (by decide)

/-- C4, amended: on every map reached from the empty map by insert, remove and
clear calls, below every node the left keys are at most the node key and the
right keys are at least the node key; the right bound is strict when the stored
keys are pairwise distinct, and when the map was reached without remove. -/
theorem order_invariant_nonstrict (ops : List (Op K V)) :
    WeakOrder (run ops).root ∧
      ((keys (run ops).root).Nodup → BSTOrder (run ops).root) ∧
      ((∀ op ∈ ops, ∀ k, op ≠ Op.remove k) → BSTOrder (run ops).root) := by
  refine ⟨(invariant_run ops).1, bstOrder_of_nodup (invariant_run ops).1, ?_⟩
  intro h
  exact bstOrder_foldl ops h (by simp [empty, BSTOrder])

/-- C5: after every public operation on a map reached from the empty map
(construction, insert, remove whether it succeeds or throws, clear) the stored
size equals the number of nodes reachable from the root. -/
theorem size_eq_numNodes (ops : List (Op K V)) :
    (run ops).size = (numNodes (run ops).root : Int) :=
  (invariant_run ops).2

end LBinaryTree

/-! ## Insert then find, and remove -/

namespace LBinaryTree

open BinaryTreeNode

variable {K V : Type} [LinearOrder K]

theorem invariant_insertAll (pairs : List (K × V)) {t : LBinaryTree K V}
    (h : Invariant t) : Invariant (insertAll t pairs) := by
  induction pairs generalizing t with
  | nil => exact h
  | cons p rest ih => exact ih (invariant_insert h p.1 p.2)

theorem insertAll_perm (pairs : List (K × V)) (t : LBinaryTree K V) :
    (inorder (insertAll t pairs).root).Perm (pairs ++ inorder t.root) := by
  induction pairs generalizing t with
  | nil => exact List.Perm.refl _
  | cons p rest ih =>
    have h1 := ih (t.insert p.1 p.2)
    have h2 : (inorder (t.insert p.1 p.2).root).Perm (p :: inorder t.root) :=
      insert_perm t.root p.1 p.2 t.size
    exact (h1.trans (List.Perm.append_left rest h2)).trans List.perm_middle

theorem insertAll_empty_perm (pairs : List (K × V)) :
    (inorder (insertAll (empty : LBinaryTree K V) pairs).root).Perm pairs := by
  simpa [empty, inorder] using insertAll_perm pairs (empty : LBinaryTree K V)

/-- C2: when key/value pairs with pairwise distinct keys are inserted one by one
into an empty map, in the order of the list, `find(k)` afterwards returns `v`
for every inserted pair `(k, v)`. -/
theorem find_after_distinct_inserts (pairs : List (K × V))
    (hd : (pairs.map Prod.fst).Nodup) (k : K) (v : V) (hm : (k, v) ∈ pairs) :
    ((insertAll empty pairs).find k).1 = .ok v := by
  have hp := insertAll_empty_perm pairs
  have hw := (invariant_insertAll pairs (invariant_empty (K := K) (V := V))).1
  have hk : k ∈ keys (insertAll empty pairs).root :=
    (mem_keys_iff _ _).mpr ⟨(k, v), hp.mem_iff.mpr hm, rfl⟩
  obtain ⟨w, hfind⟩ := find_ok_of_mem hw hk
  have hmem : (k, w) ∈ pairs := hp.mem_iff.mp (find_ok_mem hfind)
  rw [find, hfind, value_unique hd hmem hm]

/-- C2 at the first scenario: after inserting 5, 3, 8 with c, a, h, `find(3)`
returns a. -/
theorem find_after_distinct_inserts_scenario :
    (scenarioPairs.map Prod.fst).Nodup ∧ ((3 : Int), "a") ∈ scenarioPairs ∧
      ((insertAll empty scenarioPairs).find 3).1 = .ok "a" :=
  ⟨by decide, by decide,
    find_after_distinct_inserts scenarioPairs (by decide) 3 "a" (by decide)⟩

/-- C6: on every map reached from the empty map and every key `k` stored in it,
`remove(k)` returns the value that `find(k)` returned just before, and the
in-order sequence of pairs afterwards is the one before with that one pair
`(k, v)` taken out and all other pairs in place. -/
theorem remove_returns_found_and_deletes_pair (ops : List (Op K V)) (k : K)
    (hk : k ∈ keys (run ops).root) :
    ∃ v pre post, ((run ops).find k).1 = .ok v ∧
      ((run ops).remove k).result = .ok v ∧
      inorder (run ops).root = pre ++ (k, v) :: post ∧
      inorder ((run ops).remove k).tree.root = pre ++ post := by
  obtain ⟨v, hv⟩ := find_ok_of_mem (invariant_run ops).1 hk
  obtain ⟨t', pre, post, h1, h2, -, h4, h5⟩ := remove_of_find_ok (t := run ops) hv
  exact ⟨v, pre, post, hv, h1, h4, by rw [h2]; exact h5⟩

/-- C6 at the first scenario: with keys 5, 3, 8 and values c, a, h, `remove(5)`
returns c and leaves the contents a h. -/
theorem remove_returns_found_and_deletes_pair_scenario :
    (5 : Int) ∈ keys (run scenarioOps).root ∧
      ((run scenarioOps).remove 5).result = .ok "c" ∧
      BinaryTreeNode.str id ((run scenarioOps).remove 5).tree.root = "a h " ∧
      ∃ v pre post, ((run scenarioOps).find 5).1 = .ok v ∧
        ((run scenarioOps).remove 5).result = .ok v ∧
        inorder (run scenarioOps).root = pre ++ ((5 : Int), v) :: post ∧
        inorder ((run scenarioOps).remove 5).tree.root = pre ++ post :=
  ⟨by decide, rfl, by decide,
    remove_returns_found_and_deletes_pair scenarioOps 5 (by decide)⟩

/-- C7: on every map reached from the empty map and every key `k` not stored in
it, `remove(k)` throws KeyNotFound and leaves the map as it was: the same tree,
the same `size()` and the same `str()` text. -/
theorem remove_absent_key_unchanged (ops : List (Op K V)) (k : K)
    (hk : k ∉ keys (run ops).root) (render : V → String) :
    ((run ops).remove k).result = .error .keyNotFound ∧
      ((run ops).remove k).tree = run ops ∧
      ((run ops).remove k).tree.size = (run ops).size ∧
      ((run ops).remove k).tree.str render = (run ops).str render := by
  have hf : ((run ops).find k).1 = .error .keyNotFound :=
    (find_keyNotFound_iff (invariant_run ops).1 k).mpr hk
  obtain ⟨h1, h2⟩ := remove_of_find_error hf
  exact ⟨h1, h2, by rw [h2], by rw [h2]⟩

/-- C7 at the first scenario: key 7 is not stored, `remove(7)` throws and the
map keeps its three pairs. -/
theorem remove_absent_key_unchanged_scenario :
    (7 : Int) ∉ keys (run scenarioOps).root ∧
      ((run scenarioOps).remove 7).result = .error .keyNotFound ∧
      ((run scenarioOps).remove 7).tree = run scenarioOps ∧
      ((run scenarioOps).remove 7).tree.size = (run scenarioOps).size ∧
      ((run scenarioOps).remove 7).tree.str id = (run scenarioOps).str id :=
  ⟨by decide, remove_absent_key_unchanged scenarioOps 7 (by decide) id⟩

/-- C8, counterexample: after key 5 has been inserted twice, `remove(5)`
succeeds and `find(5)` right after it still succeeds, on the second node. -/
theorem find_succeeds_after_remove_of_repeated_key :
    ((run repeatedOps).remove 5).result = .ok "a" ∧
      (((run repeatedOps).remove 5).tree.find 5).1 = .ok "b" :=
  ⟨rfl, rfl⟩

/-- C8, amended: on every map reached from the empty map and every key `k` for
which `remove(k)` succeeds, `find(k)` right afterwards throws KeyNotFound exactly
when `k` was the key of a single stored node before the remove. -/
theorem find_after_remove_fails_iff_single (ops : List (Op K V)) (k : K) (v : V)
    (h : ((run ops).remove k).result = .ok v) :
    (((run ops).remove k).tree.find k).1 = .error .keyNotFound ↔
      (keys (run ops).root).count k = 1 := by
  cases hf : ((run ops).find k).1 with
  | error e =>
    rw [(remove_of_find_error hf).1] at h
    cases h
  | ok w =>
    obtain ⟨t', pre, post, -, h2, -, h4, h5⟩ := remove_of_find_ok (t := run ops) hf
    have hw : WeakOrder ((run ops).remove k).tree.root :=
      (invariant_remove (invariant_run ops) k).1
    rw [find, find_keyNotFound_iff hw, h2, ← List.count_eq_zero, keys, keys, h4, h5]
    simp only [List.map_append, List.map_cons, List.count_append, List.count_cons_self]
    omega

/-- C8 at the first scenario: key 5 is stored once, `remove(5)` succeeds and
`find(5)` afterwards throws KeyNotFound. -/
theorem find_after_remove_fails_iff_single_scenario :
    ((run scenarioOps).remove 5).result = .ok "c" ∧
      (keys (run scenarioOps).root).count 5 = 1 ∧
      (((run scenarioOps).remove 5).tree.find 5).1 = .error .keyNotFound :=
  ⟨rfl, by decide,
    (find_after_remove_fails_iff_single scenarioOps 5 "c" rfl).mpr (by decide)⟩

end LBinaryTree

/-! ## Round trip and the array constructor -/

namespace LBinaryTree

open BinaryTreeNode

variable {K V : Type} [LinearOrder K]

theorem eq_empty_of_keys_nil {t : LBinaryTree K V} (hi : Invariant t)
    (h : keys t.root = []) : t = empty := by
  have hroot : t.root = null := inorder_eq_nil (List.map_eq_nil_iff.mp h)
  have hsize : t.size = 0 := by
    rw [hi.2, hroot]
    rfl
  cases t
  simp_all [empty]

theorem removeAll_spec (rem : List K) {t : LBinaryTree K V} (hi : Invariant t)
    (hp : rem.Perm (keys t.root)) :
    (removeAll t rem).1.length = rem.length ∧
      (∀ r ∈ (removeAll t rem).1, ∃ v, r = Except.ok v) ∧
      (removeAll t rem).2 = empty := by
  induction rem generalizing t with
  | nil =>
    refine ⟨rfl, by simp [removeAll], ?_⟩
    exact eq_empty_of_keys_nil hi (List.perm_nil.mp hp.symm)
  | cons k ks ih =>
    have hk : k ∈ keys t.root := hp.mem_iff.mp (List.mem_cons_self _ _)
    obtain ⟨v, hv⟩ := find_ok_of_mem hi.1 hk
    obtain ⟨t', pre, post, h1, h2, -, h4, h5⟩ := remove_of_find_ok (t := t) hv
    have hks : ks.Perm (keys (t.remove k).tree.root) := by
      rw [h2, keys, h5]
      rw [keys, h4] at hp
      simp only [List.map_append, List.map_cons] at hp ⊢
      exact (hp.trans List.perm_middle).cons_inv
    obtain ⟨i1, i2, i3⟩ := ih (invariant_remove hi k) hks
    refine ⟨?_, ?_, ?_⟩
    · simp only [removeAll, List.length_cons, i1]
    · intro r hr
      simp only [removeAll, List.mem_cons] at hr
      rcases hr with rfl | hr
      · exact ⟨v, h1⟩
      · exact i2 r hr
    · simpa only [removeAll] using i3

theorem fromArraysLoop_eq (ks : List K) (vs : List V) (count idx : Nat)
    (t : LBinaryTree K V) (hk : idx + count ≤ ks.length) (hv : idx + count ≤ vs.length) :
    fromArraysLoop ks vs count idx t =
      .ok (insertAll t (((ks.zip vs).drop idx).take count)) := by
  induction count generalizing idx t with
  | zero => simp [fromArraysLoop, insertAll]
  | succ n ih =>
    have hik : idx < ks.length := by omega
    have hiv : idx < vs.length := by omega
    have hz : idx < (ks.zip vs).length := by
      rw [List.length_zip]
      omega
    rw [fromArraysLoop, List.getElem?_eq_getElem hik, List.getElem?_eq_getElem hiv]
    simp only
    rw [ih (idx + 1) _ (by omega) (by omega), List.drop_eq_getElem_cons hz,
      List.take_succ_cons, List.getElem_zip]
    rfl

theorem fromArrays_eq (ks : List K) (vs : List V) (hlen : ks.length = vs.length) :
    fromArrays (ks.length : Int) ks vs = .ok (insertAll empty (ks.zip vs)) := by
  rw [fromArrays, Int.toNat_natCast, fromArraysLoop_eq ks vs ks.length 0 empty
    (by omega) (by omega)]
  have hz : (ks.zip vs).length ≤ ks.length := by
    rw [List.length_zip]
    omega
  rw [List.drop_zero, List.take_of_length_le hz]

/-- C9: when the pairs of a list are inserted into an empty map in one order and
all their keys are then removed in another order, every remove succeeds and the
map ends as a freshly constructed one: root absent, size 0.  This holds for
every list of pairs, so in particular for pairwise distinct keys. -/
theorem insert_all_then_remove_all (pairs ins : List (K × V)) (rem : List K)
    (hins : ins.Perm pairs)
    (hrem : rem.Perm (pairs.map Prod.fst)) :
    (removeAll (insertAll empty ins) rem).1.length = pairs.length ∧
      (∀ r ∈ (removeAll (insertAll empty ins) rem).1, ∃ v, r = Except.ok v) ∧
      (removeAll (insertAll empty ins) rem).2 = empty ∧
      (removeAll (insertAll empty ins) rem).2.root = null ∧
      (removeAll (insertAll empty ins) rem).2.size = 0 := by
  have hi : Invariant (insertAll (empty : LBinaryTree K V) ins) :=
    invariant_insertAll ins invariant_empty
  have hp : rem.Perm (keys (insertAll (empty : LBinaryTree K V) ins).root) :=
    hrem.trans (((insertAll_empty_perm ins).trans hins).map Prod.fst).symm
  obtain ⟨h1, h2, h3⟩ := removeAll_spec rem hi hp
  refine ⟨?_, h2, h3, by rw [h3]; rfl, by rw [h3]; rfl⟩
  rw [h1, hrem.length_eq, List.length_map]

/-- C9 at the first scenario: 3, 8, 5 are inserted and 8, 5, 3 are removed. -/
theorem insert_all_then_remove_all_scenario :
    [((3 : Int), "a"), (8, "h"), (5, "c")].Perm scenarioPairs ∧
      [(8 : Int), 5, 3].Perm (scenarioPairs.map Prod.fst) ∧
      (removeAll (insertAll empty [((3 : Int), "a"), (8, "h"), (5, "c")]) [8, 5, 3]).1
        = [.ok "h", .ok "c", .ok "a"] ∧
      (removeAll (insertAll empty [((3 : Int), "a"), (8, "h"), (5, "c")]) [8, 5, 3]).2
        = empty :=
  ⟨by decide, by decide, rfl,
    (insert_all_then_remove_all scenarioPairs [((3 : Int), "a"), (8, "h"), (5, "c")]
      [8, 5, 3] (by decide) (by decide)).2.2.1⟩

/-- C10: for key and value sequences of equal length with pairwise distinct
keys, the array constructor returns a map whose `size()` is the sequence length
and whose in-order sequence of pairs is a permutation of the input pairs in
strictly ascending key order. -/
theorem fromArrays_sorted_permutation (ks : List K) (vs : List V)
    (hlen : ks.length = vs.length) (hd : ks.Nodup) :
    ∃ t, fromArrays (ks.length : Int) ks vs = .ok t ∧
      t.size = (ks.length : Int) ∧
      (inorder t.root).Perm (ks.zip vs) ∧
      (inorder t.root).Pairwise (fun a b => a.1 < b.1) := by
  refine ⟨insertAll empty (ks.zip vs), fromArrays_eq ks vs hlen, ?_, ?_, ?_⟩
  · have hi : Invariant (insertAll (empty : LBinaryTree K V) (ks.zip vs)) :=
      invariant_insertAll _ invariant_empty
    rw [hi.2, numNodes_eq_length, (insertAll_empty_perm _).length_eq,
      List.length_zip, ← hlen, Nat.min_self]
  · exact insertAll_empty_perm _
  · have hi : Invariant (insertAll (empty : LBinaryTree K V) (ks.zip vs)) :=
      invariant_insertAll _ invariant_empty
    have hle := (weakOrder_iff_pairwise _).mp hi.1
    have hperm : (keys (insertAll (empty : LBinaryTree K V) (ks.zip vs)).root).Perm ks := by
      have h := (insertAll_empty_perm (ks.zip vs)).map Prod.fst
      rwa [List.map_fst_zip _ _ (le_of_eq hlen)] at h
    have hne : (keys (insertAll (empty : LBinaryTree K V) (ks.zip vs)).root).Pairwise (· ≠ ·) :=
      hperm.nodup_iff.mpr hd
    have hlt := (hle.and hne).imp (fun h => lt_of_le_of_ne h.1 h.2)
    rw [keys, List.pairwise_map] at hlt
    exact hlt

/-- C10 at the first scenario: keys 5, 3, 8 with values c, a, h give size 3 and
the contents a c h. -/
theorem fromArrays_sorted_permutation_scenario :
    (fromArrays 3 [(5 : Int), 3, 8] ["c", "a", "h"]).map
        (fun t => (t.size, BinaryTreeNode.str id t.root, inorder t.root))
        = .ok (3, "a c h ", [(3, "a"), (5, "c"), (8, "h")]) ∧
      ∃ t, fromArrays 3 [(5 : Int), 3, 8] ["c", "a", "h"] = .ok t ∧
        t.size = 3 ∧
        (inorder t.root).Perm [(5, "c"), (3, "a"), (8, "h")] ∧
        (inorder t.root).Pairwise (fun a b => a.1 < b.1) :=
  ⟨rfl, fromArrays_sorted_permutation [(5 : Int), 3, 8] ["c", "a", "h"] rfl (by decide)⟩

end LBinaryTree

/-! ## insert keeps what is stored, the size ledger, clear -/

namespace LBinaryTree

open BinaryTreeNode

variable {K V : Type} [LinearOrder K]

theorem find_insert_of_ok {t : BinaryTreeNode K V} (key : K) (value : V) (size : Int)
    {k2 : K} {w : V} (h : (BinaryTreeNode.find t k2).1 = .ok w) :
    (BinaryTreeNode.find (BinaryTreeNode.insert t key value size).1 k2).1 = .ok w := by
  induction t with
  | null => simp [BinaryTreeNode.find] at h
  | node l k v r ihl ihr =>
    rw [find_fst_node] at h
    unfold BinaryTreeNode.insert
    by_cases hk : k = k2
    · rw [if_pos hk] at h
      split <;> simp [find_fst_node, hk, h]
    · rw [if_neg hk] at h
      by_cases hlt : k2 < k
      · rw [if_pos hlt] at h
        split <;> simp [find_fst_node, hk, hlt, h, ihl h]
      · rw [if_neg hlt] at h
        split <;> simp [find_fst_node, hk, hlt, h, ihr h]

theorem remove_error_tree {t : LBinaryTree K V} {key : K} {e : Fault}
    (h : (t.remove key).result = .error e) : (t.remove key).tree = t := by
  unfold remove at h ⊢
  split
  · rfl
  · split
    · rfl
    · simp_all

theorem remove_ok_size {t : LBinaryTree K V} {key : K} {v : V}
    (h : (t.remove key).result = .ok v) : (t.remove key).tree.size = t.size - 1 := by
  unfold remove at h ⊢
  split
  · simp_all
  · split
    · simp_all
    · rfl

theorem size_ledger (ops : List (Op K V)) (hc : ∀ op ∈ ops, op ≠ Op.clear)
    (t : LBinaryTree K V) :
    (ops.foldl applyOp t).size = t.size + insertCalls ops - removeSuccesses t ops := by
  induction ops generalizing t with
  | nil => simp [insertCalls, removeSuccesses]
  | cons op rest ih =>
    have hrest : ∀ o ∈ rest, o ≠ Op.clear := fun o ho => hc o (List.mem_cons_of_mem _ ho)
    rw [List.foldl_cons, ih hrest]
    cases op with
    | insert key value =>
      simp only [applyOp, insertCalls, removeSuccesses, insert, insert_snd]
      push_cast
      ring
    | remove key =>
      simp only [applyOp, insertCalls, removeSuccesses]
      cases hr : (t.remove key).result with
      | ok v =>
        simp only [remove_ok_size hr]
        push_cast
        ring
      | error e =>
        simp only [remove_error_tree hr]
    | clear => exact absurd rfl (hc _ (List.mem_cons_self _ _))

/-- C11: on every map reached from the empty map, for every key `k`, value `v`
and stored key `k2` (which may equal `k`), after `insert(k, v)` the size is one
more, the tree has one more node, the in-order sequence is the old one with the
single pair `(k, v)` put in, and `find(k2)` returns the value it returned
before. -/
theorem insert_never_overwrites (ops : List (Op K V)) (k : K) (v : V) (k2 : K)
    (hk2 : k2 ∈ keys (run ops).root) :
    ((run ops).insert k v).size = (run ops).size + 1 ∧
      numNodes ((run ops).insert k v).root = numNodes (run ops).root + 1 ∧
      (∃ pre post, inorder (run ops).root = pre ++ post ∧
        inorder ((run ops).insert k v).root = pre ++ (k, v) :: post) ∧
      ∃ w, ((run ops).find k2).1 = .ok w ∧
        (((run ops).insert k v).find k2).1 = .ok w := by
  refine ⟨insert_snd _ _ _ _, insert_numNodes _ _ _ _, insert_inorder _ _ _ _, ?_⟩
  obtain ⟨w, hw⟩ := find_ok_of_mem (invariant_run ops).1 hk2
  exact ⟨w, hw, find_insert_of_ok k v _ hw⟩

/-- C11 at the first scenario: a second pair with key 5 is inserted, the size
goes from 3 to 4 and `find(5)` still returns c. -/
theorem insert_never_overwrites_scenario :
    (5 : Int) ∈ keys (run scenarioOps).root ∧
      (((run scenarioOps).insert 5 "z").find 5).1 = .ok "c" ∧
      ((run scenarioOps).insert 5 "z").size = (run scenarioOps).size + 1 ∧
      numNodes ((run scenarioOps).insert 5 "z").root
        = numNodes (run scenarioOps).root + 1 ∧
      (∃ pre post, inorder (run scenarioOps).root = pre ++ post ∧
        inorder ((run scenarioOps).insert 5 "z").root = pre ++ ((5 : Int), "z") :: post) ∧
      ∃ w, ((run scenarioOps).find 5).1 = .ok w ∧
        (((run scenarioOps).insert 5 "z").find 5).1 = .ok w :=
  ⟨by decide, rfl, insert_never_overwrites scenarioOps 5 "z" 5 (by decide)⟩

/-- C12: after a sequence of insert and remove calls on the empty map (no
clear), `size()` is the number of insert calls minus the number of remove calls
that returned a value; and a remove that throws KeyNotFound, on any map reached
that way, leaves `size()` as it was. -/
theorem size_is_inserts_minus_removes (ops : List (Op K V))
    (hc : ∀ op ∈ ops, op ≠ Op.clear) :
    (run ops).size = (insertCalls ops : Int) - (removeSuccesses empty ops : Int) ∧
      ∀ k, ((run ops).remove k).result = .error .keyNotFound →
        ((run ops).remove k).tree.size = (run ops).size := by
  constructor
  · have h := size_ledger ops hc (empty : LBinaryTree K V)
    simpa [run, empty] using h
  · intro k hk
    rw [remove_error_tree hk]

/-- C12 at a sequence of two inserts, a remove that throws and a remove that
succeeds: the size is 2 - 1 = 1. -/
theorem size_is_inserts_minus_removes_scenario :
    (∀ op ∈ ledgerOps, op ≠ Op.clear) ∧ insertCalls ledgerOps = 2 ∧
      removeSuccesses empty ledgerOps = 1 ∧ (run ledgerOps).size = 1 ∧
      (run ledgerOps).size
        = (insertCalls ledgerOps : Int) - (removeSuccesses empty ledgerOps : Int) :=
  ⟨by simp [ledgerOps], rfl, rfl, rfl,
    (size_is_inserts_minus_removes ledgerOps (by simp [ledgerOps])).1⟩

end LBinaryTree

/-! ## clear and the text of str -/

namespace LBinaryTree

open BinaryTreeNode

variable {K V : Type}

theorem foldl_append_eq (l : List String) (acc : String) :
    l.foldl (fun r x => r ++ x) acc = acc ++ l.foldl (fun r x => r ++ x) "" := by
  induction l generalizing acc with
  | nil => simp
  | cons a rest ih =>
    rw [List.foldl_cons, List.foldl_cons, ih (acc ++ a), ih ("" ++ a)]
    simp [String.append_assoc]

theorem renderAll_eq_join (render : V → String) (l : List (K × V)) :
    renderAll render l = String.join (l.map (fun p => render p.2 ++ " ")) := by
  induction l with
  | nil => rfl
  | cons p rest ih =>
    rw [renderAll, ih, String.join, String.join, List.map_cons, List.foldl_cons,
      foldl_append_eq _ ("" ++ _)]
    simp

/-- C13: on every map, after `clear()` the root is absent, the size is 0 and
`str()` returns the text of a freshly constructed empty map, which is
`<BinaryTree> size: 0 values: [ ]`. -/
theorem clear_gives_empty (t : LBinaryTree K V) (render : V → String) :
    t.clear.root = null ∧ t.clear.size = 0 ∧
      t.clear.str render = (empty : LBinaryTree K V).str render ∧
      t.clear.str render = "<BinaryTree> size: 0 values: [ ]" := by
  refine ⟨rfl, rfl, rfl, ?_⟩
  simp only [clear, str, BinaryTreeNode.str]
  decide

/-- C18: on every map `str()` returns `<BinaryTree> size: `, the decimal size,
` values: [ `, then the rendering of every stored value in in-order, each
followed by one blank, then `]`; the empty map gives
`<BinaryTree> size: 0 values: [ ]`.  The call returns a text only, the map is
not written. -/
theorem str_text (t : LBinaryTree K V) (render : V → String) :
    t.str render = "<BinaryTree> size: " ++ toString t.size ++ " values: [ " ++
        String.join ((inorder t.root).map (fun p => render p.2 ++ " ")) ++ "]" ∧
      (empty : LBinaryTree K V).str render = "<BinaryTree> size: 0 values: [ ]" := by
  constructor
  · rw [str, str_eq_renderAll, renderAll_eq_join]
  · simp only [empty, str, BinaryTreeNode.str]
    decide

end LBinaryTree

/-! ## The minimum helpers and the two-child remove -/

namespace BinaryTreeNode

variable {K V : Type}

theorem getMinimum_leftmost (l r : BinaryTreeNode K V) (k : K) (v : V) :
    ∃ n m, getMinimum (node l k v r) = .ok m ∧
      subtreeAt (node l k v r) (List.replicate n Branch.left) = m := by
  induction l generalizing k v r with
  | null => exact ⟨0, node null k v r, by simp [getMinimum], by simp [subtreeAt]⟩
  | node ll lk lv lr ihl _ =>
    obtain ⟨n, m, h1, h2⟩ := ihl lr lk lv
    refine ⟨n + 1, m, ?_, ?_⟩
    · rw [getMinimum]
      exact h1
    · rw [List.replicate_succ, subtreeAt]
      exact h2

variable [LinearOrder K]

theorem head_le_of_weakOrder {t : BinaryTreeNode K V} {mk : K} {mv : V}
    {rest : List (K × V)} (hw : WeakOrder t) (h : inorder t = (mk, mv) :: rest) :
    ∀ x ∈ keys t, mk ≤ x := by
  have hp := (weakOrder_iff_pairwise t).mp hw
  rw [keys, h, List.map_cons, List.pairwise_cons] at hp
  intro x hx
  rw [keys, h, List.map_cons, List.mem_cons] at hx
  rcases hx with rfl | hx
  · exact le_refl _
  · exact hp.1 x hx

/-- C20: for every non-empty subtree, `getMinimum` returns the node reached by
going left until there is no left child; that node is the first of the in-order
traversal, so its key is at most every key when the subtree is in key order;
and `deleteMinimum` returns the subtree whose in-order sequence is the old one
without its first element. -/
theorem getMinimum_deleteMinimum_spec (t : BinaryTreeNode K V) (ht : t ≠ null) :
    ∃ mk mv mr t' n, getMinimum t = .ok (node null mk mv mr) ∧
      subtreeAt t (List.replicate n Branch.left) = node null mk mv mr ∧
      deleteMinimum t = .ok t' ∧
      (inorder t).head? = some (mk, mv) ∧
      inorder t' = (inorder t).tail ∧
      (WeakOrder t → ∀ x ∈ keys t, mk ≤ x) := by
  cases t with
  | null => exact absurd rfl ht
  | node l k v r =>
    obtain ⟨mk, mv, mr, t', h1, h2, h3⟩ := minimum_spec l r k v
    obtain ⟨n, m, h4, h5⟩ := getMinimum_leftmost l r k v
    rw [h1] at h4
    cases h4
    exact ⟨mk, mv, mr, t', n, h1, h5, h2, by rw [h3]; rfl, by rw [h3]; rfl,
      fun hw => head_le_of_weakOrder hw h3⟩

/-- C20 at the right subtree of the second scenario (15 with children 12 and
20): the minimum is the node 12 and deleting it leaves 15, 20. -/
theorem getMinimum_deleteMinimum_spec_scenario :
    (node (node null 12 "12" null) (15 : Int) "15" (node null 20 "20" null)) ≠ null ∧
      getMinimum (node (node null 12 "12" null) (15 : Int) "15" (node null 20 "20" null))
        = .ok (node null 12 "12" null) ∧
      deleteMinimum (node (node null 12 "12" null) (15 : Int) "15" (node null 20 "20" null))
        = .ok (node null 15 "15" (node null 20 "20" null)) ∧
      ∃ mk mv mr t' n,
        getMinimum (node (node null 12 "12" null) (15 : Int) "15" (node null 20 "20" null))
          = .ok (node null mk mv mr) ∧
        subtreeAt (node (node null 12 "12" null) (15 : Int) "15" (node null 20 "20" null))
          (List.replicate n Branch.left) = node null mk mv mr ∧
        deleteMinimum (node (node null 12 "12" null) (15 : Int) "15" (node null 20 "20" null))
          = .ok t' ∧
        (inorder (node (node null 12 "12" null) (15 : Int) "15"
          (node null 20 "20" null))).head? = some (mk, mv) ∧
        inorder t' = (inorder (node (node null 12 "12" null) (15 : Int) "15"
          (node null 20 "20" null))).tail ∧
        (WeakOrder (node (node null 12 "12" null) (15 : Int) "15" (node null 20 "20" null)) →
          ∀ x ∈ keys (node (node null 12 "12" null) (15 : Int) "15"
            (node null 20 "20" null)), mk ≤ x) :=
  ⟨by decide, rfl, rfl, getMinimum_deleteMinimum_spec _ (by decide)⟩

/-- C15: when the node with key `k` has two children, the private
`remove(node, k)` returns a node in the same place that holds the key and value
of the leftmost node of the old right subtree, which is its minimum key when the
subtree is in key order; the left subtree is the old one and the right subtree
is the old right subtree without exactly that node. -/
theorem remove_two_children_splice (l r : BinaryTreeNode K V) (k : K) (v : V)
    (hl : l ≠ null) (hr : r ≠ null) :
    ∃ mk mv mr r', getMinimum r = .ok (node null mk mv mr) ∧
      deleteMinimum r = .ok r' ∧
      remove (node l k v r) k = .ok (node l mk mv r') ∧
      inorder r = (mk, mv) :: inorder r' ∧
      (WeakOrder r → ∀ x ∈ keys r, mk ≤ x) := by
  cases l with
  | null => exact absurd rfl hl
  | node ll lk lv lr =>
    cases r with
    | null => exact absurd rfl hr
    | node rl rk rv rr =>
      obtain ⟨mk, mv, mr, r', h1, h2, h3⟩ := minimum_spec rl rr rk rv
      refine ⟨mk, mv, mr, r', h1, h2, ?_, h3, fun hw => head_le_of_weakOrder hw h3⟩
      rw [remove_node, if_neg (lt_irrefl k), if_neg (lt_irrefl k)]
      simp only [h1, h2]
      rfl

end BinaryTreeNode

/-! ## The descent of remove, lookups after remove, the constructor's bounds -/

namespace BinaryTreeNode

variable {K V : Type} [LinearOrder K]

theorem removePath_eq_findPath (t : BinaryTreeNode K V) (key : K) :
    removePath t key = findPath t key := by
  induction t with
  | null => rfl
  | node l k v r ihl ihr =>
    rw [removePath, findPath]
    by_cases hlt : key < k
    · have hne : ¬ k = key := fun e => absurd hlt (by rw [e]; exact lt_irrefl _)
      rw [if_pos hlt, if_neg hne, if_pos hlt, ihl]
    · by_cases hgt : key > k
      · have hne : ¬ k = key := fun e => absurd hgt (by rw [e]; exact lt_irrefl _)
        rw [if_neg hlt, if_pos hgt, if_neg hne, if_neg hlt, ihr]
      · have heq : k = key := le_antisymm (not_lt.mp hlt) (not_lt.mp hgt)
        rw [if_neg hlt, if_neg hgt, if_pos heq]

theorem subtreeAt_findPath {t : BinaryTreeNode K V} {key : K} {v : V}
    (h : (find t key).1 = .ok v) :
    ∃ l r, subtreeAt t (findPath t key) = node l key v r := by
  induction t with
  | null => simp [find] at h
  | node l k w r ihl ihr =>
    rw [find_fst_node] at h
    rw [findPath]
    by_cases hk : k = key
    · rw [if_pos hk] at h
      cases h
      rw [if_pos hk, subtreeAt, hk]
      exact ⟨l, r, rfl⟩
    · rw [if_neg hk] at h
      rw [if_neg hk]
      by_cases hlt : key < k
      · rw [if_pos hlt] at h
        rw [if_pos hlt, subtreeAt]
        exact ihl h
      · rw [if_neg hlt] at h
        rw [if_neg hlt, subtreeAt]
        exact ihr h

theorem find_eq_of_split {t t' : BinaryTreeNode K V} {pre post : List (K × V)}
    {k : K} {v : V} (ht : WeakOrder t) (ht' : WeakOrder t') (hn : (keys t).Nodup)
    (h1 : inorder t = pre ++ (k, v) :: post) (h2 : inorder t' = pre ++ post)
    (k2 : K) (hne : k2 ≠ k) : (find t' k2).1 = (find t k2).1 := by
  have hsub : ∀ p, p ∈ inorder t' → p ∈ inorder t := by
    intro p hp
    rw [h2] at hp
    rw [h1]
    rcases List.mem_append.mp hp with hp | hp
    · exact List.mem_append_left _ hp
    · exact List.mem_append_right _ (List.mem_cons_of_mem _ hp)
  cases hf : (find t k2).1 with
  | ok w =>
    have hm : (k2, w) ∈ inorder t' := by
      have hm := find_ok_mem hf
      rw [h1] at hm
      rw [h2]
      rcases List.mem_append.mp hm with hm | hm
      · exact List.mem_append_left _ hm
      · rcases List.mem_cons.mp hm with hm | hm
        · exact absurd (Prod.mk.inj hm).1 hne
        · exact List.mem_append_right _ hm
    obtain ⟨w', hw'⟩ := find_ok_of_mem ht' ((mem_keys_iff _ _).mpr ⟨(k2, w), hm, rfl⟩)
    rw [hw', value_unique hn (hsub _ (find_ok_mem hw')) (find_ok_mem hf)]
  | error e =>
    have he := find_error hf
    subst he
    rw [find_keyNotFound_iff ht'] 
    intro hm
    obtain ⟨p, hp, hk⟩ := (mem_keys_iff _ _).mp hm
    exact (find_keyNotFound_iff ht k2).mp hf ((mem_keys_iff _ _).mpr ⟨p, hsub p hp, hk⟩)

theorem remove_at_stop (l r : BinaryTreeNode K V) (k : K) (v : V) :
    ∃ s, remove (node l k v r) k = .ok s ∧
      (l = null → s = r) ∧ (l ≠ null → r = null → s = l) ∧
      (l ≠ null → r ≠ null → ∃ mk mv mr r',
        getMinimum r = .ok (node null mk mv mr) ∧ deleteMinimum r = .ok r' ∧
          s = node l mk mv r') := by
  cases l with
  | null =>
    refine ⟨r, by simp [remove_node], fun _ => rfl, fun h => absurd rfl h,
      fun h => absurd rfl h⟩
  | node ll lk lv lr =>
    cases r with
    | null =>
      refine ⟨node ll lk lv lr, by simp [remove_node], fun h => ?_, fun _ _ => rfl,
        fun _ h => absurd rfl h⟩
      cases h
    | node rl rk rv rr =>
      obtain ⟨mk, mv, mr, r', h1, h2, -⟩ := minimum_spec rl rr rk rv
      refine ⟨node (node ll lk lv lr) mk mv r', ?_, fun h => ?_, fun _ h => ?_,
        fun _ _ => ⟨mk, mv, mr, r', h1, h2, rfl⟩⟩
      · rw [remove_node, if_neg (lt_irrefl k), if_neg (lt_irrefl k)]
        simp only [h1, h2]
        rfl
      · cases h
      · cases h

theorem remove_along_path {t : BinaryTreeNode K V} {key : K} {v : V}
    (h : (find t key).1 = .ok v) :
    ∃ l r s, subtreeAt t (removePath t key) = node l key v r ∧
      remove (node l key v r) key = .ok s ∧
      remove t key = .ok (replaceAt t (removePath t key) s) := by
  induction t with
  | null => simp [find] at h
  | node l k w r ihl ihr =>
    rw [find_fst_node] at h
    by_cases hlt : key < k
    · have hne : ¬ k = key := fun e => absurd hlt (by rw [e]; exact lt_irrefl _)
      rw [if_neg hne, if_pos hlt] at h
      obtain ⟨sl, sr, s, h1, h2, h3⟩ := ihl h
      refine ⟨sl, sr, s, ?_, h2, ?_⟩
      · rw [removePath, if_pos hlt, subtreeAt]
        exact h1
      · rw [remove_node, if_pos hlt, removePath, if_pos hlt, replaceAt]
        simp only [h3]
    · by_cases hgt : key > k
      · have hne : ¬ k = key := fun e => absurd hgt (by rw [e]; exact lt_irrefl _)
        rw [if_neg hne, if_neg hlt] at h
        obtain ⟨sl, sr, s, h1, h2, h3⟩ := ihr h
        refine ⟨sl, sr, s, ?_, h2, ?_⟩
        · rw [removePath, if_neg hlt, if_pos hgt, subtreeAt]
          exact h1
        · rw [remove_node, if_neg hlt, if_pos hgt, removePath, if_neg hlt, if_pos hgt,
            replaceAt]
          simp only [h3]
      · have heq : k = key := le_antisymm (not_lt.mp hlt) (not_lt.mp hgt)
        rw [if_pos heq] at h
        cases h
        subst heq
        obtain ⟨s, hs, -⟩ := remove_at_stop l r k v
        refine ⟨l, r, s, ?_, hs, ?_⟩
        · rw [removePath, if_neg hlt, if_neg hgt, subtreeAt]
        · rw [removePath, if_neg hlt, if_neg hgt, replaceAt]
          exact hs

/-- C19: when `find(root, k)` succeeds with value `v`, the private
`remove(root, k)` takes the same branches as `find` and stops at the node where
`find` stopped, the one holding `k` and `v`.  It returns the tree that differs
from the old one only in the link to that node, which now holds the right child
(no left child), the left child (no right child), or the node refilled from
`getMinimum` and `deleteMinimum` of its non-absent right child; so it neither
throws KeyNotFound nor hands an absent node to the two helpers.  Hence the
public `remove` returns `v` on such a map, and on any map it either throws
KeyNotFound with the map untouched or returns a value. -/
theorem remove_follows_find (t : BinaryTreeNode K V) (k : K) (v : V)
    (h : (find t k).1 = .ok v) :
    removePath t k = findPath t k ∧
      (∃ l r s, subtreeAt t (findPath t k) = node l k v r ∧
        subtreeAt t (removePath t k) = node l k v r ∧
        remove t k = .ok (replaceAt t (removePath t k) s) ∧
        (l = null → s = r) ∧ (l ≠ null → r = null → s = l) ∧
        (l ≠ null → r ≠ null → ∃ mk mv mr r',
          getMinimum r = .ok (node null mk mv mr) ∧ deleteMinimum r = .ok r' ∧
            s = node l mk mv r')) ∧
      (∃ t', remove t k = .ok t') ∧
      (∀ size : Int,
        (LBinaryTree.remove { root := t, size := size } k).result = .ok v ∧
          (LBinaryTree.remove { root := t, size := size } k).tree.size = size - 1) ∧
      ∀ (m : LBinaryTree K V) (key : K),
        ((m.remove key).result = .error .keyNotFound ∧ (m.remove key).tree = m) ∨
          ∃ w, (m.remove key).result = .ok w := by
  obtain ⟨l, r, s, h1, h2, h3⟩ := remove_along_path h
  obtain ⟨s', hs', c1, c2, c3⟩ := remove_at_stop l r k v
  rw [h2] at hs'
  cases hs'
  refine ⟨removePath_eq_findPath t k, ⟨l, r, s, ?_, h1, h3, c1, c2, c3⟩, ⟨_, h3⟩, ?_, ?_⟩
  · rw [← removePath_eq_findPath]
    exact h1
  · intro size
    have hf : (LBinaryTree.find { root := t, size := size } k).1 = .ok v := h
    obtain ⟨t', -, -, r1, r2, -⟩ := LBinaryTree.remove_of_find_ok hf
    exact ⟨r1, by rw [r2]⟩
  · intro m key
    cases hf : (m.find key).1 with
    | ok w =>
      obtain ⟨-, -, -, r1, -⟩ := LBinaryTree.remove_of_find_ok hf
      exact Or.inr ⟨w, r1⟩
    | error e =>
      have he : e = .keyNotFound := find_error hf
      subst he
      exact Or.inl (LBinaryTree.remove_of_find_error hf)

end BinaryTreeNode

namespace LBinaryTree

open BinaryTreeNode

variable {K V : Type} [LinearOrder K]

theorem fromArraysLoop_outOfBounds (ks : List K) (vs : List V) (count idx : Nat)
    (t : LBinaryTree K V) (hk : idx ≤ ks.length) (hv : idx ≤ vs.length)
    (h : ks.length < idx + count ∨ vs.length < idx + count) :
    fromArraysLoop ks vs count idx t = .error .outOfBounds := by
  induction count generalizing idx t with
  | zero => omega
  | succ n ih =>
    rw [fromArraysLoop]
    by_cases hik : idx < ks.length
    · by_cases hiv : idx < vs.length
      · rw [List.getElem?_eq_getElem hik, List.getElem?_eq_getElem hiv]
        simp only
        exact ih (idx + 1) _ (by omega) (by omega) (by omega)
      · rw [List.getElem?_eq_none (by omega : vs.length ≤ idx)]
        split <;> simp_all
    · rw [List.getElem?_eq_none (by omega : ks.length ≤ idx)]

/-- C19 at the second scenario: `find(15)` succeeds one step to the right of
the root, at a node with the two children 12 and 20; the private remove takes
that step, refills the node with 20 from its right child and changes nothing
else. -/
theorem remove_follows_find_scenario :
    (BinaryTreeNode.find (run spliceOps).root 15).1 = .ok "15" ∧
      findPath (run spliceOps).root 15 = [Branch.right] ∧
      removePath (run spliceOps).root 15 = [Branch.right] ∧
      BinaryTreeNode.remove (run spliceOps).root 15
        = .ok (node (node null 5 "5" null) 10 "10"
            (node (node null 12 "12" null) 20 "20" null)) ∧
      (removePath (run spliceOps).root 15 = findPath (run spliceOps).root 15 ∧
        (∃ l r s, subtreeAt (run spliceOps).root (findPath (run spliceOps).root 15)
            = node l 15 "15" r ∧
          subtreeAt (run spliceOps).root (removePath (run spliceOps).root 15)
            = node l 15 "15" r ∧
          BinaryTreeNode.remove (run spliceOps).root 15
            = .ok (replaceAt (run spliceOps).root (removePath (run spliceOps).root 15) s) ∧
          (l = null → s = r) ∧ (l ≠ null → r = null → s = l) ∧
          (l ≠ null → r ≠ null → ∃ mk mv mr r',
            getMinimum r = .ok (node null mk mv mr) ∧ deleteMinimum r = .ok r' ∧
              s = node l mk mv r')) ∧
        (∃ t', BinaryTreeNode.remove (run spliceOps).root 15 = .ok t') ∧
        (∀ size : Int,
          (LBinaryTree.remove { root := (run spliceOps).root, size := size } 15).result
              = .ok "15" ∧
            (LBinaryTree.remove { root := (run spliceOps).root, size := size } 15).tree.size
              = size - 1) ∧
        ∀ (m : LBinaryTree Int String) (key : Int),
          ((m.remove key).result = .error .keyNotFound ∧ (m.remove key).tree = m) ∨
            ∃ w, (m.remove key).result = .ok w) :=
  ⟨rfl, by decide, by decide, rfl,
    remove_follows_find (run spliceOps).root 15 "15" rfl⟩

/-- C15 at the second scenario: after inserting 10, 5, 15, 12, 20, `remove(10)`
puts key 12 at the root and the in-order output is 5 12 15 20. -/
theorem remove_two_children_splice_scenario :
    (run spliceOps).root = node (node null 5 "5" null) 10 "10"
        (node (node null 12 "12" null) 15 "15" (node null 20 "20" null)) ∧
      ((run spliceOps).remove 10).tree.root = node (node null 5 "5" null) 12 "12"
        (node null 15 "15" (node null 20 "20" null)) ∧
      BinaryTreeNode.str id ((run spliceOps).remove 10).tree.root = "5 12 15 20 " ∧
      ∃ mk mv mr r',
        getMinimum (node (node null 12 "12" null) (15 : Int) "15" (node null 20 "20" null))
          = .ok (node null mk mv mr) ∧
        deleteMinimum (node (node null 12 "12" null) (15 : Int) "15" (node null 20 "20" null))
          = .ok r' ∧
        BinaryTreeNode.remove (node (node null 5 "5" null) 10 "10"
          (node (node null 12 "12" null) 15 "15" (node null 20 "20" null))) 10
          = .ok (node (node null 5 "5" null) mk mv r') ∧
        inorder (node (node null 12 "12" null) (15 : Int) "15" (node null 20 "20" null))
          = (mk, mv) :: inorder r' ∧
        (WeakOrder (node (node null 12 "12" null) (15 : Int) "15" (node null 20 "20" null)) →
          ∀ x ∈ keys (node (node null 12 "12" null) (15 : Int) "15"
            (node null 20 "20" null)), mk ≤ x) :=
  ⟨by decide, by decide, by decide,
    remove_two_children_splice _ _ 10 "10" (by decide) (by decide)⟩

/-- C14, counterexample: with two keys, one value and size 2 the constructor
reads past the end of the values; with size 1 it returns a map and the second
key is never looked at.  Neither call reports an invalid argument. -/
theorem fromArrays_reads_past_end :
    fromArrays 2 [(1 : Int), 2] ["a"] = .error .outOfBounds ∧
      fromArrays 1 [(1 : Int), 2] ["a"] = .ok (insertAll empty [(1, "a")]) :=
  ⟨rfl, rfl⟩

/-- C14, amended: the array constructor does not compare the lengths of its
sequences.  When `size` is within both sequences it returns the map of the
first `size` pairs, equal lengths or not; when `size` exceeds the length of
either sequence it reads past the end of that sequence. -/
theorem fromArrays_unchecked (size : Int) (ks : List K) (vs : List V) :
    (size.toNat ≤ ks.length ∧ size.toNat ≤ vs.length →
        fromArrays size ks vs = .ok (insertAll empty ((ks.zip vs).take size.toNat))) ∧
      (ks.length < size.toNat ∨ vs.length < size.toNat →
        fromArrays size ks vs = .error .outOfBounds) := by
  constructor
  · rintro ⟨hk, hv⟩
    rw [fromArrays, fromArraysLoop_eq ks vs size.toNat 0 empty (by omega) (by omega),
      List.drop_zero]
  · intro h
    exact fromArraysLoop_outOfBounds ks vs size.toNat 0 empty (Nat.zero_le _)
      (Nat.zero_le _) (by omega)

/-- C16: on every map reached from the empty map whose stored keys are pairwise
distinct, and every stored key `k`: after `remove(k)`, `find(k)` throws
KeyNotFound and for every other key `find` gives the result, value or
KeyNotFound, that it gave before. -/
theorem remove_erases_only_its_key (ops : List (Op K V)) (k : K)
    (hn : (keys (run ops).root).Nodup) (hk : k ∈ keys (run ops).root) :
    (((run ops).remove k).tree.find k).1 = .error .keyNotFound ∧
      ∀ k2, k2 ≠ k →
        (((run ops).remove k).tree.find k2).1 = ((run ops).find k2).1 := by
  obtain ⟨v, hv⟩ := find_ok_of_mem (invariant_run ops).1 hk
  obtain ⟨t', pre, post, -, h2, -, h4, h5⟩ := remove_of_find_ok (t := run ops) hv
  have hw : WeakOrder ((run ops).remove k).tree.root :=
    (invariant_remove (invariant_run ops) k).1
  rw [h2] at hw
  constructor
  · rw [h2, find, find_keyNotFound_iff hw, keys, h5]
    rw [keys, h4, List.map_append, List.map_cons] at hn
    have hn' := (List.nodup_middle.mp hn)
    rw [List.map_append]
    exact (List.nodup_cons.mp hn').1
  · intro k2 hne
    rw [h2]
    exact find_eq_of_split (invariant_run ops).1 hw hn h4 h5 k2 hne

/-- C16 at the first scenario: after `remove(5)`, `find(5)` throws and `find(3)`
and `find(8)` return a and h as before. -/
theorem remove_erases_only_its_key_scenario :
    (keys (run scenarioOps).root).Nodup ∧ (5 : Int) ∈ keys (run scenarioOps).root ∧
      (((run scenarioOps).remove 5).tree.find 3).1 = .ok "a" ∧
      (((run scenarioOps).remove 5).tree.find 8).1 = .ok "h" ∧
      (((run scenarioOps).remove 5).tree.find 5).1 = .error .keyNotFound ∧
      ∀ k2, k2 ≠ 5 →
        (((run scenarioOps).remove 5).tree.find k2).1 = ((run scenarioOps).find k2).1 :=
  ⟨by decide, by decide, rfl, rfl,
    remove_erases_only_its_key scenarioOps 5 (by decide) (by decide)⟩

/-- C17: on the map with keys 5 and 8, `find(8)` descends into the right child
and writes the found value h to `cout`, while `find(5)` and the failing
`find(9)` write nothing. -/
theorem find_writes_found_value_to_cout :
    (run rightOps).find 8 = (.ok "h", ["h"]) ∧
      (run rightOps).find 5 = (.ok "c", []) ∧
      (run rightOps).find 9 = (.error .keyNotFound, []) :=
  ⟨rfl, rfl, rfl⟩

end LBinaryTree
